import Mathlib

/-!
Verification development for a minimal MergeTree-style LSM storage engine
(row / granule / sparse-index / memtable / part / merger / engine).

Shallow embedding conventions:
* C++ std::string keys and values are opaque byte strings; they are modelled
  as `List Nat` with the lexicographic order (the order used by
  std::string::operator<).
* u64 / size_t quantities are modelled as `Nat`; wraparound is modelled
  explicitly (with `% 2 ^ 64`) where it matters: the triple-enumeration
  loop bound of the merge-candidate selection, the negation std::stoull
  applies to a signed input, and the next_part_id increment of recovery.
* doubles appearing in merge scores are modelled as exact non-negative
  fractions (`Frac`), so comparisons and positivity are exact; for the
  magnitudes produced by the score formula the sign of the double
  computation agrees with the exact rational value.
* functions that throw are modelled with `Option` / `Except`: `none` /
  `.error` is the exception path.
* std::sort is modelled by `List.insertionSort`: any correct comparison sort
  yields a sorted permutation of its input; the order of elements that
  compare equivalent is unspecified in C++, and the insertion sort fixes one
  valid choice.
* bounded C++ loops (for (...; cond; ++x)) are modelled structurally with an
  explicit iteration count passed by the caller, equal to the number of
  iterations the C++ loop performs.
-/

namespace clickhouse

/-- Row (row.h): key, value, timestamp. operator< compares by key then
timestamp; operator== compares all three fields. -/
structure Row where
  key : List Nat
  value : List Nat
  timestamp : Nat
deriving DecidableEq, Repr

/-- Strict order of Row::operator< : lexicographic on (key, timestamp). -/
def Row.lt (a b : Row) : Prop :=
  a.key < b.key ∨ (a.key = b.key ∧ a.timestamp < b.timestamp)

/-- Reflexive closure of `Row.lt`; `Row.le a b` is exactly `¬ Row.lt b a`,
the pairwise relation std::sort establishes for Row::operator<. -/
def Row.le (a b : Row) : Prop :=
  a.key < b.key ∨ (a.key = b.key ∧ a.timestamp ≤ b.timestamp)

/-- The (key, timestamp) equality used by the deduplication in
MergeTree::query and by Merger::merge_rows. -/
def sameKeyTs (a b : Row) : Prop :=
  a.key = b.key ∧ a.timestamp = b.timestamp

instance : DecidableRel Row.lt := fun a b =>
  inferInstanceAs (Decidable (a.key < b.key ∨ (a.key = b.key ∧ a.timestamp < b.timestamp)))

instance : DecidableRel Row.le := fun a b =>
  inferInstanceAs (Decidable (a.key < b.key ∨ (a.key = b.key ∧ a.timestamp ≤ b.timestamp)))

instance (a b : Row) : Decidable (sameKeyTs a b) :=
  inferInstanceAs (Decidable (a.key = b.key ∧ a.timestamp = b.timestamp))

instance : IsTrans Row Row.lt :=
  ⟨fun a b c h1 h2 => by
    rcases h1 with h1 | ⟨h1k, h1t⟩
    · rcases h2 with h2 | ⟨h2k, _⟩
      · exact Or.inl (h1.trans h2)
      · exact Or.inl (h2k ▸ h1)
    · rcases h2 with h2 | ⟨h2k, h2t⟩
      · exact Or.inl (h1k ▸ h2)
      · exact Or.inr ⟨h1k.trans h2k, Nat.lt_trans h1t h2t⟩⟩

instance : IsTrans Row Row.le :=
  ⟨fun a b c h1 h2 => by
    rcases h1 with h1 | ⟨h1k, h1t⟩
    · rcases h2 with h2 | ⟨h2k, _⟩
      · exact Or.inl (h1.trans h2)
      · exact Or.inl (h2k ▸ h1)
    · rcases h2 with h2 | ⟨h2k, h2t⟩
      · exact Or.inl (h1k ▸ h2)
      · exact Or.inr ⟨h1k.trans h2k, Nat.le_trans h1t h2t⟩⟩

instance : IsTotal Row Row.le :=
  ⟨fun a b => by
    rcases lt_trichotomy a.key b.key with h | h | h
    · exact Or.inl (Or.inl h)
    · rcases Nat.le_total a.timestamp b.timestamp with ht | ht
      · exact Or.inl (Or.inr ⟨h, ht⟩)
      · exact Or.inr (Or.inr ⟨h.symm, ht⟩)
    · exact Or.inr (Or.inl h)⟩

/-- Model of std::sort(result.begin(), result.end()) with Row::operator<:
a permutation of the input that is pairwise `Row.le`-ordered. -/
def sortRows (rows : List Row) : List Row :=
  List.insertionSort Row.le rows

/-- Tail of the std::unique pass of MergeTree::query: drop each row whose
(key, timestamp) equals that of the most recently kept row `prev`. -/
def dedupAfter (prev : Row) : List Row → List Row
  | [] => []
  | b :: rest => if sameKeyTs prev b then dedupAfter prev rest else b :: dedupAfter b rest

/-- Model of result.erase(std::unique(..., pred), end()) with
pred = equal (key, timestamp): keep the first row of every run of
(key, timestamp)-equal rows. -/
def dedupRows : List Row → List Row
  | [] => []
  | a :: rest => a :: dedupAfter a rest

/-- Level-0 scan of MemTable::query (memtable.cpp): walk the skip list in
order, keep rows with start ≤ key ≤ end, stop at the first key > end. -/
def memScan : List Row → List Nat → List Nat → List Row
  | [], _, _ => []
  | r :: rest, s, e =>
    if s ≤ r.key ∧ r.key ≤ e then r :: memScan rest s e
    else if e < r.key then []
    else memScan rest s e

/-- MemTable (memtable.cpp): the skip list's level-0 chain, i.e. the
buffered rows in iteration order. -/
structure MemTable where
  rows : List Row

/-- MemTable::query (memtable.cpp lines 47-63). -/
def MemTable.query (m : MemTable) (s e : List Nat) : List Row :=
  memScan m.rows s e

/-- Scan of Granule::query_range (granule.cpp lines 56-62): keep rows with
start ≤ key ≤ end, stop at the first key > end. -/
def granuleScan : List Row → List Nat → List Nat → List Row
  | [], _, _ => []
  | r :: rest, s, e =>
    if s ≤ r.key ∧ r.key ≤ e then r :: granuleScan rest s e
    else if e < r.key then []
    else granuleScan rest s e

/-- Granule (granule.h): its rows and the sorted flag. -/
structure Granule where
  rows : List Row
  sorted : Bool

/-- Granule::query_range (granule.cpp lines 48-65): throws NotSorted
(modelled as `none`) when the granule has not been sorted. -/
def Granule.query_range (g : Granule) (s e : List Nat) : Option (List Row) :=
  if g.sorted then some (granuleScan g.rows s e) else none

/-- IndexEntry (sparse_index.h): key range, granule position and row count
of one granule. -/
structure IndexEntry where
  min_key : List Nat
  max_key : List Nat
  granule_index : Nat
  row_count : Nat
deriving DecidableEq, Repr

/-- IndexEntry::overlaps_range (sparse_index.h lines 19-21). -/
def IndexEntry.overlaps_range (en : IndexEntry) (s e : List Nat) : Bool :=
  !(decide (en.max_key < s) || decide (en.min_key > e))

/-- SparseIndex (sparse_index.h): the ordered entry list. -/
structure SparseIndex where
  entries : List IndexEntry

/-- Loop of SparseIndex::find_granules (sparse_index.cpp lines 17-27). -/
def findGranulesList : List IndexEntry → List Nat → List Nat → List Nat
  | [], _, _ => []
  | en :: rest, s, e =>
    if en.overlaps_range s e then en.granule_index :: findGranulesList rest s e
    else findGranulesList rest s e

/-- SparseIndex::find_granules (sparse_index.cpp lines 17-27). -/
def SparseIndex.find_granules (idx : SparseIndex) (s e : List Nat) : List Nat :=
  findGranulesList idx.entries s e

/-- PartMetadata (part.h). -/
structure PartMetadata where
  part_id : Nat
  min_key : List Nat
  max_key : List Nat
  min_timestamp : Nat
  max_timestamp : Nat
  row_count : Nat
  granule_count : Nat
  disk_size : Nat
  creation_time : Nat

/-- Part (part.h), in its loaded state: metadata, sparse index and granules
as Part::query sees them after the lazy Part::load (load and read_granule
sort every granule they return, so granules built by the engine always carry
sorted = true; the flag is kept so Granule::query_range's NotSorted check
stays visible in the model). -/
structure Part where
  metadata : PartMetadata
  index : SparseIndex
  granules : List Granule

/-- Part::overlaps_range (part.cpp lines 201-203). -/
def Part.overlaps_range (p : Part) (s e : List Nat) : Bool :=
  !(decide (p.metadata.max_key < s) || decide (p.metadata.min_key > e))

/-- Granule loop of Part::query (part.cpp lines 80-85): scan each in-range
granule index and concatenate; a NotSorted throw propagates as `none`;
an index beyond the granule vector is skipped by the bounds check. -/
def scanGranules (granules : List Granule) : List Nat → List Nat → List Nat → Option (List Row)
  | [], _, _ => some []
  | gi :: rest, s, e =>
    if h : gi < granules.length then
      match (granules.get ⟨gi, h⟩).query_range s e with
      | none => none
      | some rs =>
        match scanGranules granules rest s e with
        | none => none
        | some acc => some (rs ++ acc)
    else scanGranules granules rest s e

/-- Part::query (part.cpp lines 67-88). -/
def Part.query (p : Part) (s e : List Nat) : Option (List Row) :=
  if !(p.overlaps_range s e) then some []
  else scanGranules p.granules (p.index.find_granules s e) s e

/-- MergeTree engine state visible to query: the memtable and the parts
list (merge_tree.h). -/
structure MergeTree where
  memtable : MemTable
  parts : List Part

/-- Parts loop of MergeTree::query (engine source lines 255-263): collect
the results of every part whose range overlaps. -/
def partsScan : List Part → List Nat → List Nat → Option (List Row)
  | [], _, _ => some []
  | p :: ps, s, e =>
    if p.overlaps_range s e then
      match p.query s e with
      | none => none
      | some rs =>
        match partsScan ps s e with
        | none => none
        | some acc => some (rs ++ acc)
    else partsScan ps s e

/-- MergeTree::query (engine source lines 246-272): memtable scan, parts
scan, then sort by (key, timestamp) and deduplicate on (key, timestamp)
keeping the first occurrence. -/
def MergeTree.query (t : MergeTree) (s e : List Nat) : Option (List Row) :=
  match partsScan t.parts s e with
  | none => none
  | some partRes => some (dedupRows (sortRows (t.memtable.query s e ++ partRes)))

/-- Concrete engine state used by the query witnesses: one part holding one
sorted granule of two rows, plus one memtable row. -/
def egGranule : Granule :=
  ⟨[⟨[1], [7], 1⟩, ⟨[3], [8], 2⟩], true⟩

def egPart : Part :=
  ⟨⟨1, [1], [3], 1, 2, 2, 1, 100, 0⟩, ⟨[⟨[1], [3], 0, 2⟩]⟩, [egGranule]⟩

def egEngine : MergeTree :=
  ⟨⟨[⟨[2], [9], 5⟩]⟩, [egPart]⟩

def egResult : List Row :=
  [⟨[1], [7], 1⟩, ⟨[2], [9], 5⟩, ⟨[3], [8], 2⟩]

/-- Concrete index used by the C8 witness: three entries in granule order. -/
def egIndex : SparseIndex :=
  ⟨[⟨[1], [2], 0, 10⟩, ⟨[2], [4], 1, 10⟩, ⟨[6], [9], 2, 10⟩]⟩

/-- Directory entry as seen by the recovery scan of
MergeTree::load_existing_parts: a name and whether it is a directory. -/
structure DirEntry where
  name : List Char
  is_dir : Bool

/-- Whitespace characters skipped by strtoull (C locale isspace): space,
tab, newline, vertical tab, form feed, carriage return. -/
def isSpaceC (c : Char) : Bool :=
  c = ' ' || c = '\t' || c = '\n' || c = '\x0b' || c = '\x0c' || c = '\r'

/-- Model of std::stoull (base 10) applied to the text after "part_", with
the full strtoull front end: skip leading whitespace, consume one optional
sign, then parse the longest run of decimal digits. No digits is
invalid_argument (`none`); a magnitude that does not fit in u64 is
out_of_range (`none`); a negative sign negates the magnitude modulo 2^64,
so "-1" parses to 2^64 - 1. -/
def stoullNat (cs : List Char) : Option Nat :=
  let cs1 := cs.dropWhile isSpaceC
  let signed : Bool × List Char :=
    match cs1 with
    | '-' :: rest => (true, rest)
    | '+' :: rest => (false, rest)
    | _ => (false, cs1)
  let ds := signed.2.takeWhile (fun c => c.isDigit)
  if ds.isEmpty then none
  else
    let v := ds.foldl (fun acc c => acc * 10 + (c.toNat - 48)) 0
    if v < 2 ^ 64 then some (if signed.1 then (2 ^ 64 - v) % 2 ^ 64 else v) else none

/-- Filter of the recovery scan (load_existing_parts): directories whose
name starts with "part_" contribute the id std::stoull parses from the
suffix; everything else (including names where stoull throws) is skipped. -/
def partDirId (d : DirEntry) : Option Nat :=
  if d.is_dir ∧ d.name.take 5 = ['p', 'a', 'r', 't', '_'] then stoullNat (d.name.drop 5)
  else none

def collectPartIds (dirs : List DirEntry) : List Nat :=
  dirs.filterMap partDirId

/-- Model of std::sort on the collected ids. -/
def sortNat (l : List Nat) : List Nat :=
  List.insertionSort (· ≤ ·) l

/-- MergeTree::load_existing_parts (engine source lines 373-406): collect
ids of part_<id> directories, sort ascending, keep those whose Part exists
on disk (Part::exists_on_disk abstracted by onDisk), and set next_part_id to
back + 1 when any id was seen; the increment is size_t arithmetic, so it
wraps modulo 2^64 when back is 2^64 - 1. The Merger constructor
(granule.cpp merger section line 156) initialised next_part_id to 1, which
is kept when no id was seen. Returns (recovered part ids in list order,
next_part_id). -/
def load_existing_parts (dirs : List DirEntry) (onDisk : Nat → Bool) : List Nat × Nat :=
  let ids := sortNat (collectPartIds dirs)
  (ids.filter onDisk,
    match ids.getLast? with
    | some m => (m + 1) % 2 ^ 64
    | none => 1)

/-- Concrete directory listing for the C7 witness: three valid part
directories (one with a stoull-accepted sign), one plain file named like a
part, and junk. -/
def egDirs : List DirEntry :=
  [⟨"part_12".toList, true⟩, ⟨"part_7".toList, true⟩,
   ⟨"part_9".toList, false⟩, ⟨"junk".toList, true⟩, ⟨"part_x".toList, true⟩,
   ⟨"part_+5".toList, true⟩]

/-- Concrete directory listing for the C7 counterexample: one directory
whose decimal id is 2^64 - 1, the largest u64 value. -/
def cex7Dirs : List DirEntry :=
  [⟨"part_18446744073709551615".toList, true⟩]

/-- Exact non-negative fraction modelling the doubles of the merge-score
computation (calculate_merge_score). The denominator is kept positive so
that cross-multiplication comparisons mean exact rational comparison. -/
structure Frac where
  num : Nat
  den : Nat
  den_pos : 0 < den

/-- Comparison a ≤ b of two modelled doubles, by cross-multiplication. -/
def Frac.le (a b : Frac) : Prop := a.num * b.den ≤ b.num * a.den

/-- Comparison a < b of two modelled doubles, by cross-multiplication. -/
def Frac.lt (a b : Frac) : Prop := a.num * b.den < b.num * a.den

instance : DecidableRel Frac.le := fun a b =>
  inferInstanceAs (Decidable (a.num * b.den ≤ b.num * a.den))

instance : DecidableRel Frac.lt := fun a b =>
  inferInstanceAs (Decidable (a.num * b.den < b.num * a.den))

def Frac.zero : Frac := ⟨0, 1, by decide⟩

def Frac.one : Frac := ⟨1, 1, by decide⟩

def Frac.mul (a b : Frac) : Frac :=
  ⟨a.num * b.num, a.den * b.den, Nat.mul_pos a.den_pos b.den_pos⟩

/-- std::min on modelled doubles: returns b when b < a, else a. -/
def Frac.stdMin (a b : Frac) : Frac := if Frac.lt b a then b else a

instance : IsTotal Frac Frac.le :=
  ⟨fun a b => Nat.le_total (a.num * b.den) (b.num * a.den)⟩

instance : IsTrans Frac Frac.le :=
  ⟨fun a b c h1 h2 => by
    have h1n : a.num * b.den ≤ b.num * a.den := h1
    have h2n : b.num * c.den ≤ c.num * b.den := h2
    have h3 : a.num * c.den * b.den ≤ c.num * a.den * b.den := by
      calc a.num * c.den * b.den = a.num * b.den * c.den := by ring
        _ ≤ b.num * a.den * c.den := Nat.mul_le_mul_right _ h1n
        _ = b.num * c.den * a.den := by ring
        _ ≤ c.num * b.den * a.den := Nat.mul_le_mul_right _ h2n
        _ = c.num * a.den * b.den := by ring
    exact Nat.le_of_mul_le_mul_right h3 b.den_pos⟩

/-- Numeric view of a Part used by Merger::select_merge_candidates and
calculate_merge_score: metadata().row_count and disk_usage(). -/
structure PartStats where
  row_count : Nat
  disk_size : Nat
deriving DecidableEq, Repr

/-- Accumulating loop of Merger::calculate_merge_score (granule.cpp merger
section lines 246-256): totals plus min/max of the disk sizes;
an index at or beyond parts.size() makes the score zero (`none` here). -/
def scoreFold (parts : List PartStats) :
    List Nat → Nat × Nat × Nat × Nat → Option (Nat × Nat × Nat × Nat)
  | [], acc => some acc
  | idx :: rest, (tr, tsz, mn, mx) =>
    match parts.get? idx with
    | none => none
    | some p =>
      scoreFold parts rest
        (tr + p.row_count, tsz + p.disk_size, Nat.min mn p.disk_size, Nat.max mx p.disk_size)

/-- Merger::calculate_merge_score (granule.cpp merger section lines
235-269): 0 for an empty index list, an out-of-range index, zero total rows
or zero total size; otherwise
(min_size / max_size) * (1 / k) * min(1, total_size / 10485760) * 100.
min_size starts at SIZE_MAX = 2^64 - 1 and max_size at 0. The max_size = 0
branch is unreachable (total_size ≠ 0 forces a positive size) and exists
only to provide the positive denominator of the size quotient. -/
def calculate_merge_score (part_indices : List Nat) (parts : List PartStats) : Frac :=
  if hk : part_indices.length = 0 then Frac.zero
  else
    match scoreFold parts part_indices (0, 0, 2 ^ 64 - 1, 0) with
    | none => Frac.zero
    | some (tr, tsz, mn, mx) =>
      if tr = 0 ∨ tsz = 0 then Frac.zero
      else if hmx : mx = 0 then Frac.zero
      else
        Frac.mul (Frac.mul (Frac.mul
          ⟨mn, mx, Nat.pos_of_ne_zero hmx⟩
          ⟨1, part_indices.length, Nat.pos_of_ne_zero hk⟩)
          (Frac.stdMin Frac.one ⟨tsz, 10485760, by decide⟩))
          ⟨100, 1, by decide⟩

/-- MergeCandidate (merger header section of sparse_index.cpp). -/
structure MergeCandidate where
  part_indices : List Nat
  total_rows : Nat
  total_size : Nat
  score : Frac

/-- Candidate built in the pair loop of select_merge_candidates (granule.cpp
merger section lines 191-195). The direct indexing parts[i], parts[j] is
always in range because the loop conditions bound i and j, so the getD
default is never reached. -/
def mkPairCandidate (parts : List PartStats) (i j : Nat) : MergeCandidate :=
  let p := parts.getD i ⟨0, 0⟩
  let q := parts.getD j ⟨0, 0⟩
  { part_indices := [i, j]
    total_rows := p.row_count + q.row_count
    total_size := p.disk_size + q.disk_size
    score := calculate_merge_score [i, j] parts }

/-- Inner pair loop of select_merge_candidates (granule.cpp merger section
lines 190-200): j runs while j < parts.size() and the candidate list is not
full; the caller passes the remaining iteration count parts.size() - j. -/
def pairLoopJ (parts : List PartStats) (maxC i : Nat) :
    Nat → Nat → List MergeCandidate → List MergeCandidate
  | 0, _, acc => acc
  | rem + 1, j, acc =>
    if acc.length < maxC then
      pairLoopJ parts maxC i rem (j + 1)
        (if Frac.lt Frac.zero (mkPairCandidate parts i j).score
         then acc ++ [mkPairCandidate parts i j] else acc)
    else acc

/-- Outer pair loop of select_merge_candidates (granule.cpp merger section
lines 189-201): i runs while i < parts.size() and the candidate list is not
full; the caller passes the remaining iteration count parts.size() - i. -/
def pairLoopI (parts : List PartStats) (maxC : Nat) :
    Nat → Nat → List MergeCandidate → List MergeCandidate
  | 0, _, acc => acc
  | rem + 1, i, acc =>
    if acc.length < maxC then
      pairLoopI parts maxC rem (i + 1)
        (pairLoopJ parts maxC i (parts.length - (i + 1)) (i + 1) acc)
    else acc

/-- The size_t loop bound parts.size() - 2 of the triple loop, with the u64
wraparound semantics of the unsigned subtraction. -/
def tripleBound (n : Nat) : Nat := (n + (2 ^ 64 - 2)) % 2 ^ 64

/-- Triple loop of select_merge_candidates (granule.cpp merger section lines
203-217): i runs while i < parts.size() - 2 (u64 subtraction) and the
candidate list is not full; parts[i], parts[i+1], parts[i+2] are indexed
directly without a bounds check, so an out-of-range index is undefined
behaviour, modelled as `none`. The first argument is the remaining
iteration count tripleBound parts.size() - i. -/
def tripleLoop (parts : List PartStats) (maxC : Nat) :
    Nat → Nat → List MergeCandidate → Option (List MergeCandidate)
  | 0, _, acc => some acc
  | rem + 1, i, acc =>
    if acc.length < maxC then
      match parts.get? i, parts.get? (i + 1), parts.get? (i + 2) with
      | some p0, some p1, some p2 =>
        tripleLoop parts maxC rem (i + 1)
          (if Frac.lt Frac.zero (calculate_merge_score [i, i + 1, i + 2] parts)
           then acc ++ [{ part_indices := [i, i + 1, i + 2]
                          total_rows := p0.row_count + p1.row_count + p2.row_count
                          total_size := p0.disk_size + p1.disk_size + p2.disk_size
                          score := calculate_merge_score [i, i + 1, i + 2] parts }]
           else acc)
      | _, _, _ => none
    else some acc

/-- Relation established by the final std::sort of select_merge_candidates
with comparator a.score > b.score: scores are non-increasing. -/
def scoreDesc (a b : MergeCandidate) : Prop := Frac.le b.score a.score

instance : DecidableRel scoreDesc := fun a b =>
  inferInstanceAs (Decidable (Frac.le b.score a.score))

instance : IsTotal MergeCandidate scoreDesc :=
  ⟨fun a b => (IsTotal.total (r := Frac.le) b.score a.score).imp id id⟩

instance : IsTrans MergeCandidate scoreDesc :=
  ⟨fun a b c h1 h2 => IsTrans.trans (r := Frac.le) c.score b.score a.score h2 h1⟩

/-- Model of the final std::sort of select_merge_candidates (descending
score). -/
def sortCandidates (cs : List MergeCandidate) : List MergeCandidate :=
  List.insertionSort scoreDesc cs

/-- Merger::select_merge_candidates (granule.cpp merger section lines
179-225): early return for fewer than two parts; all pairs (i, j), i < j,
then triples (i, i+1, i+2), each enumeration cut short once max_candidates
candidates are collected; finally sort by descending score. `none` models
the undefined out-of-range access of the triple loop. -/
def select_merge_candidates (parts : List PartStats) (maxC : Nat) :
    Option (List MergeCandidate) :=
  if parts.length < 2 then some []
  else
    match tripleLoop parts maxC (tripleBound parts.length) 0
        (pairLoopI parts maxC parts.length 0 []) with
    | none => none
    | some cs => some (sortCandidates cs)

/-- Concrete parts for the C4 counterexample: three equal parts, so every
pair has positive score. -/
def cex4Parts : List PartStats := [⟨1, 1024⟩, ⟨1, 1024⟩, ⟨1, 1024⟩]

/-- Concrete parts for the C4 witness: two parts. -/
def wit4Parts : List PartStats := [⟨1, 1024⟩, ⟨1, 2048⟩]

/-- Concrete two-part list for the C5 counterexample and witness. -/
def cex5Parts : List PartStats := [⟨5, 100⟩, ⟨7, 200⟩]

/-- Errors thrown by Merger::merge_parts (granule.cpp merger section lines
158-177). -/
inductive MergeError
  | emptyInput
  | emptyMergeResult
deriving DecidableEq, Repr

/-- Part as Merger::merge_parts sees it: its identity and the rows
Part::get_all_rows returns (the concatenated granule rows). -/
structure MergerPart where
  part_id : Nat
  rows : List Row
deriving DecidableEq, Repr

/-- Comparator RowWithSource::operator> (merger header section of
sparse_index.cpp lines 133-136): a > b iff a.key > b.key, or the keys are
equal and a.timestamp < b.timestamp. -/
def rwsGt (a b : Row) : Prop :=
  b.key < a.key ∨ (a.key = b.key ∧ a.timestamp < b.timestamp)

instance : DecidableRel rwsGt := fun a b =>
  inferInstanceAs (Decidable (b.key < a.key ∨ (a.key = b.key ∧ a.timestamp < b.timestamp)))

/-- Negation of `rwsGt`: the non-strict heap order (key ascending,
timestamp descending) under which the min-heap pops a minimal element. -/
def hLe (a b : Row) : Prop :=
  a.key < b.key ∨ (a.key = b.key ∧ b.timestamp ≤ a.timestamp)

instance : DecidableRel hLe := fun a b =>
  inferInstanceAs (Decidable (a.key < b.key ∨ (a.key = b.key ∧ b.timestamp ≤ a.timestamp)))

/-- Heads of the active merge cursors, with their part position: one entry
per part whose rows are not exhausted (MergeIterator keeps these in its
heap; here the remaining suffix of each part's rows is the state). -/
def heads : List (List Row) → Nat → List (Nat × Row)
  | [], _ => []
  | [] :: ls, i => heads ls (i + 1)
  | (r :: _) :: ls, i => (i, r) :: heads ls (i + 1)

/-- Selection of a minimal cursor under `rwsGt`, keeping the earliest
minimal one. std::priority_queue leaves the order of cursors that compare
equivalent (equal key and timestamp) unspecified; this fold is one
deterministic refinement, and the statements proved below do not depend on
the choice. -/
def pickFold (h : Nat × Row) (t : List (Nat × Row)) : Nat × Row :=
  t.foldl (fun best c => if rwsGt best.2 c.2 then c else best) h

def pickMin : List (Nat × Row) → Option (Nat × Row)
  | [] => none
  | h :: t => some (pickFold h t)

/-- Advance of the cursor of part i (MergeIterator::advance_part): drop the
head of the i-th remaining list. -/
def popAt : List (List Row) → Nat → List (List Row)
  | [], _ => []
  | l :: ls, 0 => l.tail :: ls
  | l :: ls, n + 1 => l :: popAt ls n

def totalLen (lists : List (List Row)) : Nat :=
  (lists.map List.length).sum

/-- Loop of Merger::merge_rows (granule.cpp merger section lines 280-288)
over the MergeIterator: pop a minimal cursor, append its row unless the row
equals the last appended row on (key, timestamp), advance that cursor.
The accumulator is kept reversed; the fuel is the total number of rows. -/
def mergeLoop : Nat → List (List Row) → List Row → List Row
  | 0, _, acc => acc.reverse
  | fuel + 1, rem, acc =>
    match pickMin (heads rem 0) with
    | none => acc.reverse
    | some (i, r) =>
      match acc with
      | [] => mergeLoop fuel (popAt rem i) (r :: acc)
      | b :: _ =>
        if sameKeyTs b r then mergeLoop fuel (popAt rem i) acc
        else mergeLoop fuel (popAt rem i) (r :: acc)

/-- Merger::merge_rows (granule.cpp merger section lines 271-291), taking
the get_all_rows row list of each input part. -/
def merge_rows (lists : List (List Row)) : List Row :=
  mergeLoop (totalLen lists) lists []

/-- Merger::merge_parts (granule.cpp merger section lines 158-177): empty
input throws EmptyInput; a single part is returned unchanged; otherwise the
k-way merge runs and a new part with the next id is written via
write_from_memtable_rows, which sorts the rows (and packs them into
granules). -/
def merge_parts (next_id : Nat) (parts : List MergerPart) : Except MergeError MergerPart :=
  match parts with
  | [] => Except.error MergeError.emptyInput
  | [p] => Except.ok p
  | _ =>
    let merged := merge_rows (parts.map (fun p => p.rows))
    if merged.isEmpty then Except.error MergeError.emptyMergeResult
    else Except.ok ⟨next_id, sortRows merged⟩

/-- Concrete merge input for the C3 counterexample: two identical parts,
each holding the same key at two timestamps (rows sorted by
Row::operator<, as rows of parts on disk are). -/
def cex3Parts : List (List Row) :=
  [[⟨[10], [0], 1⟩, ⟨[10], [1], 2⟩], [⟨[10], [0], 1⟩, ⟨[10], [1], 2⟩]]

/-- Concrete merge input for the C3 witness: a single one-row part. -/
def wit3Parts : List (List Row) := [[⟨[4], [2], 3⟩]]

/-- Concrete merge input for the C9 counterexample (distinct from the C3
one): same shape, different key. -/
def cex9Parts : List (List Row) :=
  [[⟨[5], [0], 1⟩, ⟨[5], [1], 2⟩], [⟨[5], [0], 1⟩, ⟨[5], [1], 2⟩]]

/-- Concrete merge input for the C9 witness: two sorted parts. -/
def wit9Parts : List (List Row) :=
  [[⟨[1], [0], 1⟩, ⟨[2], [0], 5⟩], [⟨[1], [9], 7⟩]]

theorem Row.lt_of_le_of_not_same {a b : Row} (h : Row.le a b) (hne : ¬ sameKeyTs a b) :
    Row.lt a b := by
  rcases h with h | ⟨hk, ht⟩
  · exact Or.inl h
  · rcases Nat.lt_or_ge a.timestamp b.timestamp with hlt | hge
    · exact Or.inr ⟨hk, hlt⟩
    · exact absurd ⟨hk, Nat.le_antisymm ht hge⟩ hne

theorem Row.not_same_of_lt {a b : Row} (h : Row.lt a b) : ¬ sameKeyTs a b := by
  rintro ⟨hk, ht⟩
  rcases h with h | ⟨_, h⟩
  · exact absurd (hk ▸ h) (lt_irrefl _)
  · exact absurd (ht ▸ h) (Nat.lt_irrefl _)

theorem Row.le_congr_left {a b x : Row} (h : sameKeyTs a b) (hx : Row.le b x) : Row.le a x := by
  rcases hx with hlt | ⟨hk, ht⟩
  · exact Or.inl (by rw [h.1]; exact hlt)
  · exact Or.inr ⟨h.1.trans hk, by rw [h.2]; exact ht⟩

theorem Row.key_le_of_le {a b : Row} (h : Row.le a b) : a.key ≤ b.key := by
  rcases h with h | ⟨hk, _⟩
  · exact h.le
  · exact hk.le

theorem sortRows_sorted (rows : List Row) : (sortRows rows).Pairwise Row.le :=
  List.sorted_insertionSort Row.le rows

theorem sortRows_perm (rows : List Row) : (sortRows rows).Perm rows :=
  List.perm_insertionSort Row.le rows

theorem dedupAfter_sublist (prev : Row) (l : List Row) : (dedupAfter prev l).Sublist l := by
  induction l generalizing prev with
  | nil => exact List.Sublist.refl _
  | cons b rest ih =>
    by_cases h : sameKeyTs prev b
    · simp only [dedupAfter, if_pos h]
      exact (ih prev).trans (List.sublist_cons_self b rest)
    · simp only [dedupAfter, if_neg h]
      exact (ih b).cons₂ b

theorem dedupRows_sublist (l : List Row) : (dedupRows l).Sublist l := by
  cases l with
  | nil => exact List.Sublist.refl _
  | cons a rest => exact (dedupAfter_sublist a rest).cons₂ a

theorem dedupAfter_chain (l : List Row) (prev : Row)
    (hprev : ∀ x ∈ l, Row.le prev x) (hl : l.Pairwise Row.le) :
    List.Chain' Row.lt (prev :: dedupAfter prev l) := by
  induction l generalizing prev with
  | nil => simp [dedupAfter]
  | cons b rest ih =>
    rcases List.pairwise_cons.mp hl with ⟨hb, hrest⟩
    by_cases h : sameKeyTs prev b
    · simp only [dedupAfter, if_pos h]
      refine ih prev (fun x hx => ?_) hrest
      exact Row.le_congr_left h (hb x hx)
    · simp only [dedupAfter, if_neg h]
      refine List.Chain'.cons (Row.lt_of_le_of_not_same (hprev b (List.mem_cons_self b rest)) h) ?_
      exact ih b hb hrest

theorem dedupRows_chain (l : List Row) (hl : l.Pairwise Row.le) :
    List.Chain' Row.lt (dedupRows l) := by
  cases l with
  | nil => simp [dedupRows]
  | cons a rest =>
    rcases List.pairwise_cons.mp hl with ⟨ha, hrest⟩
    exact dedupAfter_chain rest a ha hrest

theorem dedupRows_pairwise_lt (l : List Row) (hl : l.Pairwise Row.le) :
    (dedupRows l).Pairwise Row.lt :=
  (List.chain'_iff_pairwise).mp (dedupRows_chain l hl)

theorem memScan_bounds {l : List Row} {s e : List Nat} {r : Row}
    (h : r ∈ memScan l s e) : s ≤ r.key ∧ r.key ≤ e := by
  induction l with
  | nil => simp [memScan] at h
  | cons a rest ih =>
    by_cases h1 : s ≤ a.key ∧ a.key ≤ e
    · simp only [memScan, if_pos h1] at h
      rcases List.mem_cons.mp h with h | h
      · exact h ▸ h1
      · exact ih h
    · simp only [memScan, if_neg h1] at h
      by_cases h2 : e < a.key
      · simp [if_pos h2] at h
      · simp only [if_neg h2] at h
        exact ih h

theorem memScan_empty_of_rev {l : List Row} {s e : List Nat} (h : e < s) :
    memScan l s e = [] := by
  induction l with
  | nil => rfl
  | cons a rest ih =>
    have h1 : ¬ (s ≤ a.key ∧ a.key ≤ e) := by
      rintro ⟨hs, he⟩
      exact absurd (le_trans hs he) (not_le.mpr h)
    simp only [memScan, if_neg h1]
    by_cases h2 : e < a.key
    · simp [if_pos h2]
    · simp only [if_neg h2]
      exact ih

theorem granuleScan_bounds {l : List Row} {s e : List Nat} {r : Row}
    (h : r ∈ granuleScan l s e) : s ≤ r.key ∧ r.key ≤ e := by
  induction l with
  | nil => simp [granuleScan] at h
  | cons a rest ih =>
    by_cases h1 : s ≤ a.key ∧ a.key ≤ e
    · simp only [granuleScan, if_pos h1] at h
      rcases List.mem_cons.mp h with h | h
      · exact h ▸ h1
      · exact ih h
    · simp only [granuleScan, if_neg h1] at h
      by_cases h2 : e < a.key
      · simp [if_pos h2] at h
      · simp only [if_neg h2] at h
        exact ih h

theorem granuleScan_empty_of_rev {l : List Row} {s e : List Nat} (h : e < s) :
    granuleScan l s e = [] := by
  induction l with
  | nil => rfl
  | cons a rest ih =>
    have h1 : ¬ (s ≤ a.key ∧ a.key ≤ e) := by
      rintro ⟨hs, he⟩
      exact absurd (le_trans hs he) (not_le.mpr h)
    simp only [granuleScan, if_neg h1]
    by_cases h2 : e < a.key
    · simp [if_pos h2]
    · simp only [if_neg h2]
      exact ih

theorem Granule.query_range_some {g : Granule} {s e : List Nat} {rs : List Row}
    (h : g.query_range s e = some rs) : rs = granuleScan g.rows s e := by
  unfold Granule.query_range at h
  by_cases hs : g.sorted
  · rw [if_pos hs] at h
    exact (Option.some.inj h).symm
  · rw [if_neg hs] at h
    cases h

theorem scanGranules_bounds {granules : List Granule} {idxs : List Nat} {s e : List Nat}
    {l : List Row} (hs : scanGranules granules idxs s e = some l) :
    ∀ r ∈ l, s ≤ r.key ∧ r.key ≤ e := by
  induction idxs generalizing l with
  | nil =>
    simp only [scanGranules, Option.some.injEq] at hs
    simp [← hs]
  | cons gi rest ih =>
    by_cases h : gi < granules.length
    · simp only [scanGranules, dif_pos h] at hs
      rcases hq : (granules.get ⟨gi, h⟩).query_range s e with _ | rs
      · rw [hq] at hs; exact absurd hs (by simp)
      · rw [hq] at hs
        rcases hrec : scanGranules granules rest s e with _ | acc
        · rw [hrec] at hs; exact absurd hs (by simp)
        · rw [hrec] at hs
          simp only [Option.some.injEq] at hs
          subst hs
          intro r hr
          rcases List.mem_append.mp hr with hr | hr
          · exact granuleScan_bounds ((Granule.query_range_some hq) ▸ hr)
          · exact ih hrec r hr
    · simp only [scanGranules, dif_neg h] at hs
      exact ih hs

theorem partQuery_bounds {p : Part} {s e : List Nat} {l : List Row}
    (hq : p.query s e = some l) : ∀ r ∈ l, s ≤ r.key ∧ r.key ≤ e := by
  unfold Part.query at hq
  by_cases h : !(p.overlaps_range s e)
  · simp only [if_pos h, Option.some.injEq] at hq
    simp [← hq]
  · simp only [if_neg h] at hq
    exact scanGranules_bounds hq

theorem partsScan_bounds {parts : List Part} {s e : List Nat} {l : List Row}
    (hs : partsScan parts s e = some l) : ∀ r ∈ l, s ≤ r.key ∧ r.key ≤ e := by
  induction parts generalizing l with
  | nil =>
    simp only [partsScan, Option.some.injEq] at hs
    simp [← hs]
  | cons p ps ih =>
    by_cases h : p.overlaps_range s e
    · simp only [partsScan, if_pos h] at hs
      rcases hq : p.query s e with _ | rs
      · rw [hq] at hs; exact absurd hs (by simp)
      · rw [hq] at hs
        rcases hrec : partsScan ps s e with _ | acc
        · rw [hrec] at hs; exact absurd hs (by simp)
        · rw [hrec] at hs
          simp only [Option.some.injEq] at hs
          subst hs
          intro r hr
          rcases List.mem_append.mp hr with hr | hr
          · exact partQuery_bounds hq r hr
          · exact ih hrec r hr
    · simp only [partsScan, if_neg h] at hs
      exact ih hs

theorem scanGranules_rev {granules : List Granule} {idxs : List Nat} {s e : List Nat}
    {l : List Row} (hab : e < s) (hs : scanGranules granules idxs s e = some l) : l = [] := by
  induction idxs generalizing l with
  | nil => exact (Option.some.inj hs).symm
  | cons gi rest ih =>
    by_cases h : gi < granules.length
    · simp only [scanGranules, dif_pos h] at hs
      rcases hq : (granules.get ⟨gi, h⟩).query_range s e with _ | rs
      · rw [hq] at hs; cases hs
      · rw [hq] at hs
        rcases hrec : scanGranules granules rest s e with _ | acc
        · rw [hrec] at hs; cases hs
        · rw [hrec] at hs
          have h1 : rs = [] := by
            rw [Granule.query_range_some hq]
            exact granuleScan_empty_of_rev hab
          have h2 : acc = [] := ih hrec
          rw [h1, h2] at hs
          exact (Option.some.inj hs).symm
    · simp only [scanGranules, dif_neg h] at hs
      exact ih hs

theorem partQuery_rev {p : Part} {s e : List Nat} {l : List Row}
    (hab : e < s) (hq : p.query s e = some l) : l = [] := by
  unfold Part.query at hq
  by_cases h : !(p.overlaps_range s e)
  · rw [if_pos h] at hq
    exact (Option.some.inj hq).symm
  · rw [if_neg h] at hq
    exact scanGranules_rev hab hq

theorem partsScan_rev {parts : List Part} {s e : List Nat} {l : List Row}
    (hab : e < s) (hs : partsScan parts s e = some l) : l = [] := by
  induction parts generalizing l with
  | nil => exact (Option.some.inj hs).symm
  | cons p ps ih =>
    by_cases h : p.overlaps_range s e
    · simp only [partsScan, if_pos h] at hs
      rcases hq : p.query s e with _ | rs
      · rw [hq] at hs; cases hs
      · rw [hq] at hs
        rcases hrec : partsScan ps s e with _ | acc
        · rw [hrec] at hs; cases hs
        · rw [hrec] at hs
          rw [partQuery_rev hab hq, ih hrec] at hs
          exact (Option.some.inj hs).symm
    · simp only [partsScan, if_neg h] at hs
      exact ih hs

/-- C1: for every call MergeTree::query(a, b) that returns normally, the
returned row list is sorted by (key, timestamp) ascending and every returned
row r satisfies a ≤ r.key ≤ b. -/
theorem C1_query_sorted_and_in_range (t : MergeTree) (a b : List Nat) (res : List Row)
    (h : t.query a b = some res) :
    res.Pairwise Row.le ∧ ∀ r ∈ res, a ≤ r.key ∧ r.key ≤ b := by
  unfold MergeTree.query at h
  rcases hp : partsScan t.parts a b with _ | partRes
  · rw [hp] at h; cases h
  · rw [hp] at h
    have hres : res = dedupRows (sortRows (t.memtable.query a b ++ partRes)) :=
      (Option.some.inj h).symm
    subst hres
    constructor
    · exact List.Pairwise.sublist (dedupRows_sublist _) (sortRows_sorted _)
    · intro r hr
      have hr1 : r ∈ sortRows (t.memtable.query a b ++ partRes) :=
        (dedupRows_sublist _).subset hr
      have hr2 : r ∈ t.memtable.query a b ++ partRes := (sortRows_perm _).subset hr1
      rcases List.mem_append.mp hr2 with hr3 | hr3
      · exact memScan_bounds hr3
      · exact partsScan_bounds hp r hr3

/-- C2: for every call MergeTree::query(a, b) that returns normally, no two
distinct positions of the result hold rows with equal key and equal
timestamp. -/
theorem C2_query_no_duplicate_pairs (t : MergeTree) (a b : List Nat) (res : List Row)
    (h : t.query a b = some res) :
    res.Pairwise (fun x y => ¬ sameKeyTs x y) := by
  unfold MergeTree.query at h
  rcases hp : partsScan t.parts a b with _ | partRes
  · rw [hp] at h; cases h
  · rw [hp] at h
    have hres : res = dedupRows (sortRows (t.memtable.query a b ++ partRes)) :=
      (Option.some.inj h).symm
    subst hres
    exact (dedupRows_pairwise_lt _ (sortRows_sorted _)).imp fun hlt => Row.not_same_of_lt hlt

/-- C10: for every engine state and keys with start_key > end_key, a normal
return of MergeTree::query(start_key, end_key) is the empty list. -/
theorem C10_reversed_range_empty (t : MergeTree) (a b : List Nat) (res : List Row)
    (hab : b < a) (h : t.query a b = some res) : res = [] := by
  unfold MergeTree.query at h
  rcases hp : partsScan t.parts a b with _ | partRes
  · rw [hp] at h; cases h
  · rw [hp] at h
    have h1 : t.memtable.query a b = [] := memScan_empty_of_rev hab
    have h2 : partRes = [] := partsScan_rev hab hp
    rw [h1, h2] at h
    exact (Option.some.inj h).symm

theorem C1_witness :
    egEngine.query [1] [3] = some egResult ∧
    (egResult.Pairwise Row.le ∧ ∀ r ∈ egResult, [1] ≤ r.key ∧ r.key ≤ [3]) :=
  ⟨by decide, C1_query_sorted_and_in_range egEngine [1] [3] egResult (by decide)⟩

theorem C2_witness :
    egEngine.query [1] [3] = some egResult ∧
    egResult.Pairwise (fun x y => ¬ sameKeyTs x y) :=
  ⟨by decide, C2_query_no_duplicate_pairs egEngine [1] [3] egResult (by decide)⟩

theorem C10_witness :
    (([1] : List Nat) < [3]) ∧ egEngine.query [3] [1] = some [] ∧ ([] : List Row) = [] :=
  ⟨by decide, by decide,
    C10_reversed_range_empty egEngine [3] [1] [] (by decide) (by decide)⟩

theorem findGranulesList_eq_filter_map (l : List IndexEntry) (s e : List Nat) :
    findGranulesList l s e =
      (l.filter (fun en => en.overlaps_range s e)).map (fun en => en.granule_index) := by
  induction l with
  | nil => rfl
  | cons en rest ih =>
    by_cases h : en.overlaps_range s e
    · rw [findGranulesList, if_pos h,
        List.filter_cons_of_pos (p := fun x : IndexEntry => x.overlaps_range s e) h,
        List.map_cons, ih]
    · rw [findGranulesList, if_neg h,
        List.filter_cons_of_neg (p := fun x : IndexEntry => x.overlaps_range s e) h, ih]

/-- C8: an index entry overlaps [start, end] exactly when
!(max_key < start or min_key > end), that is when start ≤ max_key and
min_key ≤ end (inclusive on both ends); find_granules returns the
granule_index of exactly the overlapping entries and, when entries were
added in ascending granule_index order, the result is ascending. -/
theorem C8_overlaps_and_find_granules (idx : SparseIndex) (s e : List Nat)
    (hsorted : idx.entries.Pairwise (fun x y => x.granule_index ≤ y.granule_index)) :
    (∀ en : IndexEntry, en.overlaps_range s e = true ↔ (s ≤ en.max_key ∧ en.min_key ≤ e)) ∧
    idx.find_granules s e =
      (idx.entries.filter (fun en => en.overlaps_range s e)).map (fun en => en.granule_index) ∧
    (idx.find_granules s e).Pairwise (· ≤ ·) := by
  refine ⟨fun en => ?_, findGranulesList_eq_filter_map idx.entries s e, ?_⟩
  · simp [IndexEntry.overlaps_range, not_lt, GT.gt, and_comm]
  · rw [SparseIndex.find_granules, findGranulesList_eq_filter_map idx.entries s e]
    rw [List.pairwise_map]
    exact List.Pairwise.filter _ hsorted

theorem C8_witness :
    (∀ en : IndexEntry, en.overlaps_range [3] [7] = true ↔
      ([3] ≤ en.max_key ∧ en.min_key ≤ [7])) ∧
    egIndex.find_granules [3] [7] =
      (egIndex.entries.filter (fun en => en.overlaps_range [3] [7])).map
        (fun en => en.granule_index) ∧
    (egIndex.find_granules [3] [7]).Pairwise (· ≤ ·) :=
  C8_overlaps_and_find_granules egIndex [3] [7] (by decide)

theorem sortNat_sorted (l : List Nat) : (sortNat l).Pairwise (· ≤ ·) :=
  List.sorted_insertionSort (· ≤ ·) l

theorem sortNat_perm (l : List Nat) : (sortNat l).Perm l :=
  List.perm_insertionSort (· ≤ ·) l

theorem sorted_getLast_max {l : List Nat} (hs : l.Pairwise (· ≤ ·)) (hne : l ≠ []) :
    ∃ m, l.getLast? = some m ∧ m ∈ l ∧ ∀ x ∈ l, x ≤ m := by
  induction l with
  | nil => exact absurd rfl hne
  | cons a rest ih =>
    rcases List.pairwise_cons.mp hs with ⟨ha, hrest⟩
    cases rest with
    | nil =>
      exact ⟨a, rfl, List.mem_singleton.mpr rfl, by simp⟩
    | cons b rest2 =>
      rcases ih hrest (by simp) with ⟨m, hm1, hm2, hm3⟩
      refine ⟨m, ?_, List.mem_cons_of_mem a hm2, ?_⟩
      · rw [List.getLast?_cons_cons]
        exact hm1
      · intro x hx
        rcases List.mem_cons.mp hx with hx | hx
        · exact hx ▸ le_trans (ha m hm2) (le_refl m)
        · exact hm3 x hx

/-- C7 (amended): after the recovery scan, next_part_id is the maximum
observed part id plus one REDUCED MODULO 2^64 when at least one part_<id>
directory was observed — equal to max + 1 except when the maximum id is
2^64 - 1, where the size_t increment wraps to 0 — and 1 when none was;
the recovered parts list is ascending in part_id. Observed ids are those
std::stoull parses, which also accepts a leading sign ("part_-1" yields id
2^64 - 1). -/
theorem C7_recovery_next_id_and_order (dirs : List DirEntry) (onDisk : Nat → Bool) :
    (collectPartIds dirs ≠ [] →
      ∃ m, m ∈ collectPartIds dirs ∧ (∀ x ∈ collectPartIds dirs, x ≤ m) ∧
        (load_existing_parts dirs onDisk).2 = (m + 1) % 2 ^ 64) ∧
    (collectPartIds dirs = [] → (load_existing_parts dirs onDisk).2 = 1) ∧
    (load_existing_parts dirs onDisk).1.Pairwise (· ≤ ·) := by
  refine ⟨fun hne => ?_, fun hemp => ?_, ?_⟩
  · have hsne : sortNat (collectPartIds dirs) ≠ [] := by
      intro hcon
      apply hne
      have hpm := sortNat_perm (collectPartIds dirs)
      rw [hcon] at hpm
      exact List.Perm.eq_nil hpm.symm
    rcases sorted_getLast_max (sortNat_sorted (collectPartIds dirs)) hsne with ⟨m, hm1, hm2, hm3⟩
    refine ⟨m, (sortNat_perm _).subset hm2, fun x hx => ?_, ?_⟩
    · exact hm3 x ((sortNat_perm _).symm.subset hx)
    · simp only [load_existing_parts, hm1]
  · have hnil : sortNat (collectPartIds dirs) = [] := by rw [hemp]; rfl
    simp only [load_existing_parts, hnil, List.getLast?_nil]
  · exact List.Pairwise.filter _ (sortNat_sorted (collectPartIds dirs))

/-- C7 counterexample: a directory named with the largest representable
decimal id, 2^64 - 1; the code observes that id and computes
part_ids.back() + 1 in size_t, which wraps to 0 — not the maximum observed
id plus one. -/
theorem C7_counterexample :
    collectPartIds cex7Dirs = [2 ^ 64 - 1] ∧
    (load_existing_parts cex7Dirs (fun _ => true)).2 = 0 ∧
    (2 ^ 64 - 1) + 1 ≠ 0 := by decide

theorem C7_witness :
    (∃ m, m ∈ collectPartIds egDirs ∧ (∀ x ∈ collectPartIds egDirs, x ≤ m) ∧
      (load_existing_parts egDirs (fun _ => true)).2 = (m + 1) % 2 ^ 64) ∧
    (load_existing_parts egDirs (fun _ => true)).1.Pairwise (· ≤ ·) :=
  ⟨(C7_recovery_next_id_and_order egDirs (fun _ => true)).1 (by decide),
   (C7_recovery_next_id_and_order egDirs (fun _ => true)).2.2⟩

theorem pairLoopJ_length_le {parts : List PartStats} {maxC i : Nat} :
    ∀ {rem j : Nat} {acc : List MergeCandidate}, acc.length ≤ maxC →
      (pairLoopJ parts maxC i rem j acc).length ≤ maxC := by
  intro rem
  induction rem with
  | zero => intro j acc h; exact h
  | succ rem ih =>
    intro j acc h
    by_cases hlt : acc.length < maxC
    · simp only [pairLoopJ, if_pos hlt]
      apply ih
      by_cases hsc : Frac.lt Frac.zero (mkPairCandidate parts i j).score
      · rw [if_pos hsc]
        simp only [List.length_append, List.length_singleton]
        omega
      · rw [if_neg hsc]
        exact h
    · simp only [pairLoopJ, if_neg hlt]
      exact h

theorem pairLoopI_length_le {parts : List PartStats} {maxC : Nat} :
    ∀ {rem i : Nat} {acc : List MergeCandidate}, acc.length ≤ maxC →
      (pairLoopI parts maxC rem i acc).length ≤ maxC := by
  intro rem
  induction rem with
  | zero => intro i acc h; exact h
  | succ rem ih =>
    intro i acc h
    by_cases hlt : acc.length < maxC
    · simp only [pairLoopI, if_pos hlt]
      exact ih (pairLoopJ_length_le h)
    · simp only [pairLoopI, if_neg hlt]
      exact h

theorem tripleLoop_length_le {parts : List PartStats} {maxC : Nat} :
    ∀ {rem i : Nat} {acc res : List MergeCandidate},
      tripleLoop parts maxC rem i acc = some res → acc.length ≤ maxC →
      res.length ≤ maxC := by
  intro rem
  induction rem with
  | zero =>
    intro i acc res h hacc
    exact (Option.some.inj h) ▸ hacc
  | succ rem ih =>
    intro i acc res h hacc
    by_cases hlt : acc.length < maxC
    · simp only [tripleLoop, if_pos hlt] at h
      rcases h0 : parts.get? i with _ | p0 <;> rw [h0] at h
      · cases h
      rcases h1 : parts.get? (i + 1) with _ | p1 <;> rw [h1] at h
      · cases h
      rcases h2 : parts.get? (i + 2) with _ | p2 <;> rw [h2] at h
      · cases h
      refine ih h ?_
      by_cases hsc : Frac.lt Frac.zero (calculate_merge_score [i, i + 1, i + 2] parts)
      · rw [if_pos hsc]
        simp only [List.length_append, List.length_singleton]
        omega
      · rw [if_neg hsc]
        exact hacc
    · simp only [tripleLoop, if_neg hlt] at h
      exact (Option.some.inj h) ▸ hacc

theorem pairLoopJ_mem {parts : List PartStats} {maxC i : Nat} :
    ∀ {rem j : Nat} {acc : List MergeCandidate} {c : MergeCandidate},
      c ∈ pairLoopJ parts maxC i rem j acc →
      c ∈ acc ∨ ∃ j2, j ≤ j2 ∧ j2 < j + rem ∧ c = mkPairCandidate parts i j2 := by
  intro rem
  induction rem with
  | zero => intro j acc c h; exact Or.inl h
  | succ rem ih =>
    intro j acc c h
    by_cases hlt : acc.length < maxC
    · simp only [pairLoopJ, if_pos hlt] at h
      rcases ih h with h2 | ⟨j2, hj1, hj2, hj3⟩
      · by_cases hsc : Frac.lt Frac.zero (mkPairCandidate parts i j).score
        · rw [if_pos hsc] at h2
          rcases List.mem_append.mp h2 with h3 | h3
          · exact Or.inl h3
          · refine Or.inr ⟨j, le_refl j, by omega, ?_⟩
            exact List.mem_singleton.mp h3
        · rw [if_neg hsc] at h2
          exact Or.inl h2
      · exact Or.inr ⟨j2, by omega, by omega, hj3⟩
    · simp only [pairLoopJ, if_neg hlt] at h
      exact Or.inl h

theorem pairLoopI_mem {parts : List PartStats} {maxC : Nat} :
    ∀ {rem i : Nat} {acc : List MergeCandidate} {c : MergeCandidate},
      c ∈ pairLoopI parts maxC rem i acc →
      c ∈ acc ∨ ∃ i2 j2, i2 < j2 ∧ j2 < parts.length ∧ c = mkPairCandidate parts i2 j2 := by
  intro rem
  induction rem with
  | zero => intro i acc c h; exact Or.inl h
  | succ rem ih =>
    intro i acc c h
    by_cases hlt : acc.length < maxC
    · simp only [pairLoopI, if_pos hlt] at h
      rcases ih h with h2 | ⟨i2, j2, hj1, hj2, hj3⟩
      · rcases pairLoopJ_mem h2 with h3 | ⟨j2, hj1, hj2, hj3⟩
        · exact Or.inl h3
        · exact Or.inr ⟨i, j2, by omega, by omega, hj3⟩
      · exact Or.inr ⟨i2, j2, hj1, hj2, hj3⟩
    · simp only [pairLoopI, if_neg hlt] at h
      exact Or.inl h

theorem tripleLoop_mem {parts : List PartStats} {maxC : Nat} :
    ∀ {rem i : Nat} {acc res : List MergeCandidate} {c : MergeCandidate},
      tripleLoop parts maxC rem i acc = some res → c ∈ res →
      c ∈ acc ∨ ∃ i2, i2 + 2 < parts.length ∧ c.part_indices = [i2, i2 + 1, i2 + 2] := by
  intro rem
  induction rem with
  | zero =>
    intro i acc res c h hc
    exact Or.inl ((Option.some.inj h) ▸ hc)
  | succ rem ih =>
    intro i acc res c h hc
    by_cases hlt : acc.length < maxC
    · simp only [tripleLoop, if_pos hlt] at h
      rcases h0 : parts.get? i with _ | p0 <;> rw [h0] at h
      · cases h
      rcases h1 : parts.get? (i + 1) with _ | p1 <;> rw [h1] at h
      · cases h
      rcases h2 : parts.get? (i + 2) with _ | p2 <;> rw [h2] at h
      · cases h
      rcases ih h hc with h3 | ⟨i2, hi1, hi2⟩
      · by_cases hsc : Frac.lt Frac.zero (calculate_merge_score [i, i + 1, i + 2] parts)
        · rw [if_pos hsc] at h3
          rcases List.mem_append.mp h3 with h4 | h4
          · exact Or.inl h4
          · have hidx : i + 2 < parts.length := (List.get?_eq_some.mp h2).1
            obtain rfl := List.mem_singleton.mp h4
            exact Or.inr ⟨i, hidx, rfl⟩
        · rw [if_neg hsc] at h3
          exact Or.inl h3
      · exact Or.inr ⟨i2, hi1, hi2⟩
    · simp only [tripleLoop, if_neg hlt] at h
      exact Or.inl ((Option.some.inj h) ▸ hc)

/-- C4 (amended): whenever select_merge_candidates(parts, max_candidates)
returns normally, the result holds at most max_candidates candidates,
sorted by descending score, and every candidate is either a pair (i, j)
with i < j < |parts| — not only adjacent pairs — or an adjacent triple
(i, i+1, i+2) with i+2 < |parts|; enumeration stops as soon as
max_candidates candidates have been collected, so the result need not be
the globally highest-scoring candidates. -/
theorem C4_select_candidates_shape (parts : List PartStats) (maxC : Nat)
    (res : List MergeCandidate) (h : select_merge_candidates parts maxC = some res) :
    res.length ≤ maxC ∧ res.Pairwise scoreDesc ∧
    ∀ c ∈ res,
      (∃ i j, i < j ∧ j < parts.length ∧ c.part_indices = [i, j]) ∨
      (∃ i, i + 2 < parts.length ∧ c.part_indices = [i, i + 1, i + 2]) := by
  unfold select_merge_candidates at h
  by_cases hsmall : parts.length < 2
  · rw [if_pos hsmall] at h
    obtain rfl : ([] : List MergeCandidate) = res := Option.some.inj h
    exact ⟨Nat.zero_le _, List.Pairwise.nil, fun c hc => absurd hc (List.not_mem_nil c)⟩
  · rw [if_neg hsmall] at h
    rcases htl : tripleLoop parts maxC (tripleBound parts.length) 0
        (pairLoopI parts maxC parts.length 0 []) with _ | cs
    · rw [htl] at h; cases h
    · rw [htl] at h
      obtain rfl : sortCandidates cs = res := Option.some.inj h
      refine ⟨?_, List.sorted_insertionSort scoreDesc cs, ?_⟩
      · show (List.insertionSort scoreDesc cs).length ≤ maxC
        rw [(List.perm_insertionSort scoreDesc cs).length_eq]
        exact tripleLoop_length_le htl (pairLoopI_length_le (Nat.zero_le maxC))
      · intro c hc
        have hc2 : c ∈ cs := (List.perm_insertionSort scoreDesc cs).subset hc
        rcases tripleLoop_mem htl hc2 with h3 | ⟨i2, hi1, hi2⟩
        · rcases pairLoopI_mem h3 with h4 | ⟨i2, j2, hj1, hj2, hj3⟩
          · exact absurd h4 (List.not_mem_nil c)
          · refine Or.inl ⟨i2, j2, hj1, hj2, ?_⟩
            rw [hj3]
            rfl
        · exact Or.inr ⟨i2, hi1, hi2⟩

/-- C4 counterexample: with three equal parts the returned candidate list
contains the non-adjacent pair (0, 2), so the enumeration is not restricted
to adjacent pairs. -/
theorem C4_counterexample :
    (select_merge_candidates cex4Parts 10).map (fun l => l.map (fun c => c.part_indices)) =
      some [[0, 1], [0, 2], [1, 2], [0, 1, 2]] := by decide

theorem C4_witness :
    ∃ res, select_merge_candidates wit4Parts 5 = some res ∧
      (res.length ≤ 5 ∧ res.Pairwise scoreDesc ∧
        ∀ c ∈ res,
          (∃ i j, i < j ∧ j < wit4Parts.length ∧ c.part_indices = [i, j]) ∨
          (∃ i, i + 2 < wit4Parts.length ∧ c.part_indices = [i, i + 1, i + 2])) := by
  have hs : (select_merge_candidates wit4Parts 5).isSome = true := by decide
  cases hx : select_merge_candidates wit4Parts 5 with
  | none => rw [hx] at hs; cases hs
  | some res => exact ⟨res, rfl, C4_select_candidates_shape wit4Parts 5 res hx⟩

/-- C5 (amended): for every parts list with fewer than 3 parts,
select_merge_candidates performs no out-of-range access: fewer than 2 parts
return empty before any loop, and with exactly 2 parts the triple-loop
bound parts.size() - 2 evaluates to 0 (the unsigned subtraction is reached
only when parts.size() ≥ 2, so it never underflows) and the triple
enumeration body never runs. -/
theorem C5_small_parts_no_oob (parts : List PartStats) (maxC : Nat)
    (h : parts.length < 3) :
    ∃ res, select_merge_candidates parts maxC = some res := by
  by_cases h2 : parts.length < 2
  · exact ⟨[], by simp only [select_merge_candidates, if_pos h2]⟩
  · have hb : tripleBound parts.length = 0 := by
      have hlen : parts.length = 2 := by omega
      rw [hlen]
      decide
    refine ⟨sortCandidates (pairLoopI parts maxC parts.length 0 []), ?_⟩
    unfold select_merge_candidates
    rw [if_neg h2, hb]
    rfl

/-- C5 counterexample: at the boundary size 2 (fewer than 3 parts) the
function returns normally — here the single pair (0, 1) — rather than
underflowing and reading out of range. -/
theorem C5_counterexample :
    (select_merge_candidates cex5Parts 10).map (fun l => l.map (fun c => c.part_indices)) =
      some [[0, 1]] := by decide

theorem C5_witness :
    cex5Parts.length < 3 ∧ ∃ res, select_merge_candidates cex5Parts 10 = some res :=
  ⟨by decide, C5_small_parts_no_oob cex5Parts 10 (by decide)⟩

/-- C6: Merger::merge_parts returns a single input part unchanged, and
fails with EmptyInput on an empty input list. -/
theorem C6_merge_parts_single_and_empty :
    (∀ (next_id : Nat) (p : MergerPart), merge_parts next_id [p] = Except.ok p) ∧
    (∀ next_id : Nat, merge_parts next_id [] = Except.error MergeError.emptyInput) :=
  ⟨fun _ _ => rfl, fun _ => rfl⟩

theorem not_rwsGt_iff_hLe {a b : Row} : ¬ rwsGt a b ↔ hLe a b := by
  constructor
  · intro h
    rcases lt_trichotomy a.key b.key with hk | hk | hk
    · exact Or.inl hk
    · refine Or.inr ⟨hk, ?_⟩
      by_contra hts
      exact h (Or.inr ⟨hk, by omega⟩)
    · exact absurd (Or.inl hk) h
  · rintro (h | ⟨hk, hts⟩) (hg | ⟨hk2, hts2⟩)
    · exact absurd (h.trans hg) (lt_irrefl _)
    · rw [hk2] at h
      exact absurd h (lt_irrefl _)
    · rw [hk] at hg
      exact absurd hg (lt_irrefl _)
    · omega

theorem hLe_total (a b : Row) : hLe a b ∨ hLe b a := by
  rcases lt_trichotomy a.key b.key with h | h | h
  · exact Or.inl (Or.inl h)
  · rcases Nat.le_total a.timestamp b.timestamp with ht | ht
    · exact Or.inr (Or.inr ⟨h.symm, ht⟩)
    · exact Or.inl (Or.inr ⟨h, ht⟩)
  · exact Or.inr (Or.inl h)

theorem hLe_trans {a b c : Row} (h1 : hLe a b) (h2 : hLe b c) : hLe a c := by
  rcases h1 with h1 | ⟨h1k, h1t⟩
  · rcases h2 with h2 | ⟨h2k, _⟩
    · exact Or.inl (h1.trans h2)
    · exact Or.inl (h2k ▸ h1)
  · rcases h2 with h2 | ⟨h2k, h2t⟩
    · exact Or.inl (h1k ▸ h2)
    · exact Or.inr ⟨h1k.trans h2k, Nat.le_trans h2t h1t⟩

theorem hLe_refl (a : Row) : hLe a a :=
  Or.inr ⟨rfl, Nat.le_refl _⟩

theorem hLe_key_le {a b : Row} (h : hLe a b) : a.key ≤ b.key := by
  rcases h with h | ⟨hk, _⟩
  · exact h.le
  · exact hk.le

theorem pickFold_mem (h : Nat × Row) (t : List (Nat × Row)) : pickFold h t ∈ h :: t := by
  induction t generalizing h with
  | nil => exact List.mem_singleton.mpr rfl
  | cons c t ih =>
    unfold pickFold at ih ⊢
    simp only [List.foldl_cons]
    by_cases hg : rwsGt h.2 c.2
    · rw [if_pos hg]
      exact List.mem_cons_of_mem h (ih c)
    · rw [if_neg hg]
      rcases List.mem_cons.mp (ih h) with h1 | h1
      · rw [h1]
        exact List.mem_cons_self _ _
      · exact List.mem_cons_of_mem _ (List.mem_cons_of_mem _ h1)

theorem pickFold_min (h : Nat × Row) (t : List (Nat × Row)) :
    ∀ y ∈ h :: t, hLe (pickFold h t).2 y.2 := by
  induction t generalizing h with
  | nil =>
    intro y hy
    obtain rfl := List.mem_singleton.mp hy
    exact hLe_refl _
  | cons c t ih =>
    intro y hy
    unfold pickFold at ih ⊢
    simp only [List.foldl_cons]
    by_cases hg : rwsGt h.2 c.2
    · rw [if_pos hg]
      rcases List.mem_cons.mp hy with rfl | hy2
      · have h1 := ih c c (List.mem_cons_self c t)
        have h2 : hLe c.2 y.2 := by
          rcases hLe_total c.2 y.2 with h3 | h3
          · exact h3
          · exact absurd hg (not_rwsGt_iff_hLe.mpr h3)
        exact hLe_trans h1 h2
      · exact ih c y hy2
    · rw [if_neg hg]
      rcases List.mem_cons.mp hy with heq | hy2
      · rw [heq]
        exact ih h h (List.mem_cons_self h t)
      · rcases List.mem_cons.mp hy2 with heq | hy3
        · rw [heq]
          have h1 := ih h h (List.mem_cons_self h t)
          exact hLe_trans h1 (not_rwsGt_iff_hLe.mp hg)
        · exact ih h y (List.mem_cons_of_mem h hy3)

theorem pickMin_none_iff {hs : List (Nat × Row)} : pickMin hs = none ↔ hs = [] := by
  cases hs with
  | nil => simp [pickMin]
  | cons h t => simp [pickMin]

theorem pickMin_some_mem {hs : List (Nat × Row)} {x : Nat × Row}
    (h : pickMin hs = some x) : x ∈ hs := by
  cases hs with
  | nil => cases h
  | cons a t => exact (Option.some.inj h) ▸ pickFold_mem a t

theorem pickMin_some_min {hs : List (Nat × Row)} {x : Nat × Row}
    (h : pickMin hs = some x) : ∀ y ∈ hs, hLe x.2 y.2 := by
  cases hs with
  | nil => cases h
  | cons a t =>
    intro y hy
    exact (Option.some.inj h) ▸ pickFold_min a t y hy

theorem heads_get {rem : List (List Row)} : ∀ {k i : Nat} {r : Row},
    (i, r) ∈ heads rem k → ∃ li tl, i = k + li ∧ rem.get? li = some (r :: tl) := by
  induction rem with
  | nil => intro k i r h; simp [heads] at h
  | cons l ls ih =>
    intro k i r h
    cases l with
    | nil =>
      rcases ih (k := k + 1) h with ⟨li, tl, h1, h2⟩
      exact ⟨li + 1, tl, by omega, by simpa using h2⟩
    | cons x xs =>
      rcases List.mem_cons.mp h with h1 | h1
      · rcases Prod.mk.injEq .. ▸ h1 with ⟨hik, hxr⟩
        exact ⟨0, xs, by omega, by simp [← hxr]⟩
      · rcases ih (k := k + 1) h1 with ⟨li, tl, h2, h3⟩
        exact ⟨li + 1, tl, by omega, by simpa using h3⟩

theorem heads_head_mem {rem : List (List Row)} : ∀ {k li : Nat} {x : Row} {tl : List Row},
    rem.get? li = some (x :: tl) → (k + li, x) ∈ heads rem k := by
  induction rem with
  | nil => intro k li x tl h; cases h
  | cons l ls ih =>
    intro k li x tl h
    cases li with
    | zero =>
      have hl : l = x :: tl := Option.some.inj h
      subst hl
      simp [heads]
    | succ li =>
      have h2 : ls.get? li = some (x :: tl) := h
      have h3 := ih (k := k + 1) h2
      have harith : k + (li + 1) = (k + 1) + li := by omega
      cases l with
      | nil => simpa [heads, harith] using h3
      | cons y ys =>
        rw [heads, harith]
        exact List.mem_cons_of_mem _ h3

theorem heads_eq_nil {rem : List (List Row)} : ∀ {k : Nat},
    heads rem k = [] → ∀ l ∈ rem, l = [] := by
  induction rem with
  | nil => intro k _ l hl; cases hl
  | cons l ls ih =>
    intro k h l2 hl2
    cases l with
    | nil =>
      rcases List.mem_cons.mp hl2 with rfl | hl3
      · rfl
      · exact ih (k := k + 1) h l2 hl3
    | cons x xs => cases h

theorem popAt_get_ne {rem : List (List Row)} : ∀ {i li : Nat}, li ≠ i →
    (popAt rem i).get? li = rem.get? li := by
  induction rem with
  | nil => intro i li _; rfl
  | cons l ls ih =>
    intro i li hne
    cases i with
    | zero =>
      cases li with
      | zero => exact absurd rfl hne
      | succ li => rfl
    | succ i =>
      cases li with
      | zero => rfl
      | succ li => exact ih (by omega)

theorem popAt_get_tail {rem : List (List Row)} : ∀ {i : Nat} {l : List Row},
    rem.get? i = some l → (popAt rem i).get? i = some l.tail := by
  induction rem with
  | nil => intro i l h; cases h
  | cons a ls ih =>
    intro i l h
    cases i with
    | zero =>
      have ha : a = l := Option.some.inj h
      subst ha
      rfl
    | succ i => exact ih h

theorem popAt_mem_src {rem : List (List Row)} : ∀ {i : Nat} {l2 : List Row},
    l2 ∈ popAt rem i → l2 ∈ rem ∨ ∃ l ∈ rem, l2 = l.tail := by
  induction rem with
  | nil => intro i l2 h; cases h
  | cons a ls ih =>
    intro i l2 h
    cases i with
    | zero =>
      rcases List.mem_cons.mp h with rfl | h2
      · exact Or.inr ⟨a, List.mem_cons_self a ls, rfl⟩
      · exact Or.inl (List.mem_cons_of_mem a h2)
    | succ i =>
      rcases List.mem_cons.mp h with rfl | h2
      · exact Or.inl (List.mem_cons_self l2 ls)
      · rcases ih h2 with h3 | ⟨l, hl1, hl2⟩
        · exact Or.inl (List.mem_cons_of_mem a h3)
        · exact Or.inr ⟨l, List.mem_cons_of_mem a hl1, hl2⟩

theorem popAt_subset_rows {rem : List (List Row)} {i : Nat} {l2 : List Row}
    (h : l2 ∈ popAt rem i) : ∀ x ∈ l2, ∃ l ∈ rem, x ∈ l := by
  intro x hx
  rcases popAt_mem_src h with h2 | ⟨l, hl1, hl2⟩
  · exact ⟨l2, h2, hx⟩
  · exact ⟨l, hl1, (List.tail_sublist l).subset (hl2 ▸ hx)⟩

theorem totalLen_popAt {rem : List (List Row)} : ∀ {i : Nat} {x : Row} {tl : List Row},
    rem.get? i = some (x :: tl) → totalLen (popAt rem i) + 1 = totalLen rem := by
  induction rem with
  | nil => intro i x tl h; cases h
  | cons a ls ih =>
    intro i x tl h
    cases i with
    | zero =>
      have ha : a = x :: tl := Option.some.inj h
      subst ha
      simp only [popAt, totalLen, List.map_cons, List.sum_cons, List.tail_cons,
        List.length_cons]
      omega
    | succ i =>
      have h2 := ih h
      simp only [popAt, totalLen, List.map_cons, List.sum_cons]
      simp only [totalLen] at h2
      omega

theorem totalLen_zero {rem : List (List Row)} (h : totalLen rem = 0) :
    ∀ l ∈ rem, l = [] := by
  induction rem with
  | nil => intro l hl; cases hl
  | cons a ls ih =>
    simp only [totalLen, List.map_cons, List.sum_cons] at h
    intro l hl
    rcases List.mem_cons.mp hl with rfl | hl2
    · exact List.length_eq_zero.mp (by omega)
    · exact ih (by simp only [totalLen]; omega) l hl2

theorem mergeLoop_succ_none (fuel : Nat) (rem : List (List Row)) (acc : List Row)
    (h : pickMin (heads rem 0) = none) : mergeLoop (fuel + 1) rem acc = acc.reverse := by
  simp only [mergeLoop, h]

theorem mergeLoop_succ_nil (fuel : Nat) (rem : List (List Row)) (i : Nat) (r : Row)
    (h : pickMin (heads rem 0) = some (i, r)) :
    mergeLoop (fuel + 1) rem [] = mergeLoop fuel (popAt rem i) [r] := by
  simp only [mergeLoop, h]

theorem mergeLoop_succ_cons (fuel : Nat) (rem : List (List Row)) (i : Nat) (r b : Row)
    (bs : List Row) (h : pickMin (heads rem 0) = some (i, r)) :
    mergeLoop (fuel + 1) rem (b :: bs) =
      if sameKeyTs b r then mergeLoop fuel (popAt rem i) (b :: bs)
      else mergeLoop fuel (popAt rem i) (r :: b :: bs) := by
  simp only [mergeLoop, h]

theorem mergeLoop_acc_mem : ∀ (fuel : Nat) (rem : List (List Row)) (acc : List Row)
    (a : Row), a ∈ acc → a ∈ mergeLoop fuel rem acc := by
  intro fuel
  induction fuel with
  | zero =>
    intro rem acc a ha
    simpa [mergeLoop] using ha
  | succ fuel ih =>
    intro rem acc a ha
    rcases hpick : pickMin (heads rem 0) with _ | ⟨i, r⟩
    · rw [mergeLoop_succ_none fuel rem acc hpick]
      simpa using ha
    · cases acc with
      | nil => cases ha
      | cons b bs =>
        rw [mergeLoop_succ_cons fuel rem i r b bs hpick]
        by_cases hsame : sameKeyTs b r
        · rw [if_pos hsame]
          exact ih _ _ a ha
        · rw [if_neg hsame]
          exact ih _ _ a (List.mem_cons_of_mem r ha)

theorem mergeLoop_keeps : ∀ (fuel : Nat) (rem : List (List Row)) (acc : List Row),
    totalLen rem ≤ fuel →
    ∀ li (l : List Row) (x : Row), rem.get? li = some l → x ∈ l →
    ∃ o ∈ mergeLoop fuel rem acc, sameKeyTs o x := by
  intro fuel
  induction fuel with
  | zero =>
    intro rem acc h li l x hget hx
    have hl : l = [] := totalLen_zero (Nat.le_zero.mp h) l (List.get?_mem hget)
    subst hl
    cases hx
  | succ fuel ih =>
    intro rem acc h li l x hget hx
    rcases hpick : pickMin (heads rem 0) with _ | ⟨i, r⟩
    · have hl : l = [] := heads_eq_nil (pickMin_none_iff.mp hpick) l (List.get?_mem hget)
      subst hl
      cases hx
    · have hmem := pickMin_some_mem hpick
      rcases heads_get hmem with ⟨li2, tl, hieq, hgi⟩
      have hieq2 : li2 = i := by omega
      subst hieq2
      have hlen := totalLen_popAt hgi
      have hfuel2 : totalLen (popAt rem li2) ≤ fuel := by omega
      by_cases hli : li = li2
      · subst hli
        have hlrt : l = r :: tl := by
          rw [hget] at hgi
          exact Option.some.inj hgi
        rcases List.mem_cons.mp (hlrt ▸ hx) with heqx | hx2
        · cases acc with
          | nil =>
            rw [mergeLoop_succ_nil fuel rem li r hpick]
            refine ⟨r, mergeLoop_acc_mem fuel _ [r] r (List.mem_singleton.mpr rfl), ?_⟩
            rw [heqx]
            exact ⟨rfl, rfl⟩
          | cons b bs =>
            rw [mergeLoop_succ_cons fuel rem li r b bs hpick]
            by_cases hsame : sameKeyTs b r
            · rw [if_pos hsame]
              refine ⟨b, mergeLoop_acc_mem fuel _ _ b (List.mem_cons_self b bs), ?_⟩
              rw [heqx]
              exact hsame
            · rw [if_neg hsame]
              refine ⟨r, mergeLoop_acc_mem fuel _ _ r (List.mem_cons_self r (b :: bs)), ?_⟩
              rw [heqx]
              exact ⟨rfl, rfl⟩
        · have hget2 : (popAt rem li).get? li = some tl := by
            have := popAt_get_tail hgi
            simpa using this
          cases acc with
          | nil =>
            rw [mergeLoop_succ_nil fuel rem li r hpick]
            exact ih (popAt rem li) [r] hfuel2 li tl x hget2 hx2
          | cons b bs =>
            rw [mergeLoop_succ_cons fuel rem li r b bs hpick]
            by_cases hsame : sameKeyTs b r
            · rw [if_pos hsame]
              exact ih (popAt rem li) (b :: bs) hfuel2 li tl x hget2 hx2
            · rw [if_neg hsame]
              exact ih (popAt rem li) (r :: b :: bs) hfuel2 li tl x hget2 hx2
      · have hget2 : (popAt rem li2).get? li = some l := by
          rw [popAt_get_ne hli]
          exact hget
        cases acc with
        | nil =>
          rw [mergeLoop_succ_nil fuel rem li2 r hpick]
          exact ih (popAt rem li2) [r] hfuel2 li l x hget2 hx
        | cons b bs =>
          rw [mergeLoop_succ_cons fuel rem li2 r b bs hpick]
          by_cases hsame : sameKeyTs b r
          · rw [if_pos hsame]
            exact ih (popAt rem li2) (b :: bs) hfuel2 li l x hget2 hx
          · rw [if_neg hsame]
            exact ih (popAt rem li2) (r :: b :: bs) hfuel2 li l x hget2 hx

/-- C3 (amended): every (key, timestamp) pair present in the union of the
input parts' rows appears in the merge_rows output at least once — a popped
row is dropped only when its (key, timestamp) equals that of the row
emitted immediately before it. Exactly one copy per pair is NOT guaranteed:
when the same key occurs at several timestamps in several parts, the heap
order (key ascending, timestamp descending) disagrees with the input order
(timestamp ascending), duplicates pop non-adjacently, and the
compare-with-back deduplication misses them. -/
theorem C3_merge_keeps_every_pair (lists : List (List Row)) (l : List Row) (x : Row)
    (hl : l ∈ lists) (hx : x ∈ l) :
    ∃ o ∈ merge_rows lists, sameKeyTs o x := by
  rcases List.get?_of_mem hl with ⟨li, hget⟩
  exact mergeLoop_keeps (totalLen lists) lists [] (le_refl _) li l x hget hx

/-- C3 counterexample: two identical two-row parts with one key at two
timestamps; the pair ([10], 1) is present in the inputs, yet the merge
output contains it twice — not exactly once. -/
theorem C3_counterexample :
    ([⟨[10], [0], 1⟩, ⟨[10], [1], 2⟩] : List Row) ∈ cex3Parts ∧
    (⟨[10], [0], 1⟩ : Row) ∈ ([⟨[10], [0], 1⟩, ⟨[10], [1], 2⟩] : List Row) ∧
    (merge_rows cex3Parts).count ⟨[10], [0], 1⟩ = 2 := by decide

theorem C3_witness :
    ([⟨[4], [2], 3⟩] : List Row) ∈ wit3Parts ∧
    ∃ o ∈ merge_rows wit3Parts, sameKeyTs o ⟨[4], [2], 3⟩ :=
  ⟨by decide,
    C3_merge_keeps_every_pair wit3Parts [⟨[4], [2], 3⟩] ⟨[4], [2], 3⟩ (by decide) (by decide)⟩

theorem mergeLoop_chain : ∀ (fuel : Nat) (rem : List (List Row)) (acc : List Row),
    totalLen rem ≤ fuel →
    (∀ l ∈ rem, l.Pairwise Row.le) →
    List.Chain' (fun a b => b.key ≤ a.key ∧ ¬ sameKeyTs b a) acc →
    (∀ b, acc.head? = some b → ∀ l ∈ rem, ∀ x ∈ l, b.key ≤ x.key) →
    List.Chain' (fun x y => x.key ≤ y.key ∧ ¬ sameKeyTs x y) (mergeLoop fuel rem acc) := by
  intro fuel
  induction fuel with
  | zero =>
    intro rem acc _ _ hacc _
    show List.Chain' (fun x y => x.key ≤ y.key ∧ ¬ sameKeyTs x y) acc.reverse
    rw [List.chain'_reverse]
    exact hacc
  | succ fuel ih =>
    intro rem acc hfuel hrem hacc hhead
    rcases hpick : pickMin (heads rem 0) with _ | ⟨i, r⟩
    · rw [mergeLoop_succ_none fuel rem acc hpick, List.chain'_reverse]
      exact hacc
    · have hmem := pickMin_some_mem hpick
      rcases heads_get hmem with ⟨li2, tl, hieq, hgi⟩
      have hieq2 : li2 = i := by omega
      subst hieq2
      have hlen := totalLen_popAt hgi
      have hfuel2 : totalLen (popAt rem li2) ≤ fuel := by omega
      have hrkey : ∀ l ∈ rem, ∀ x ∈ l, r.key ≤ x.key := by
        intro l hl x hx
        cases l with
        | nil => cases hx
        | cons hd tlx =>
          rcases List.get?_of_mem hl with ⟨lj, hgetj⟩
          have hhd : (0 + lj, hd) ∈ heads rem 0 := heads_head_mem hgetj
          have h1 : hLe r hd := pickMin_some_min hpick (0 + lj, hd) hhd
          have h2 : r.key ≤ hd.key := hLe_key_le h1
          rcases List.mem_cons.mp hx with heq | hx2
          · rw [heq]
            exact h2
          · have h3 : Row.le hd x := (List.pairwise_cons.mp (hrem _ hl)).1 x hx2
            exact le_trans h2 (Row.key_le_of_le h3)
      have hrem2 : ∀ l ∈ popAt rem li2, l.Pairwise Row.le := by
        intro l hl
        rcases popAt_mem_src hl with h1 | ⟨l0, hl0, rfl⟩
        · exact hrem l h1
        · cases l0 with
          | nil => exact List.Pairwise.nil
          | cons h0 t0 => exact (List.pairwise_cons.mp (hrem _ hl0)).2
      have hrows2 : ∀ l ∈ popAt rem li2, ∀ x ∈ l, ∃ l0 ∈ rem, x ∈ l0 :=
        fun l hl => popAt_subset_rows hl
      cases acc with
      | nil =>
        rw [mergeLoop_succ_nil fuel rem li2 r hpick]
        refine ih (popAt rem li2) [r] hfuel2 hrem2 (by simp) ?_
        intro b hb l hl x hx
        have hbr : b = r := by simpa using hb.symm
        rcases hrows2 l hl x hx with ⟨l0, hl0, hx0⟩
        rw [hbr]
        exact hrkey l0 hl0 x hx0
      | cons b bs =>
        rw [mergeLoop_succ_cons fuel rem li2 r b bs hpick]
        have hbkey : b.key ≤ r.key :=
          hhead b rfl (r :: tl) (List.get?_mem hgi) r (List.mem_cons_self r tl)
        by_cases hsame : sameKeyTs b r
        · rw [if_pos hsame]
          refine ih (popAt rem li2) (b :: bs) hfuel2 hrem2 hacc ?_
          intro b2 hb2 l hl x hx
          have hb2b : b2 = b := by simpa using hb2.symm
          rcases hrows2 l hl x hx with ⟨l0, hl0, hx0⟩
          rw [hb2b]
          exact hhead b rfl l0 hl0 x hx0
        · rw [if_neg hsame]
          refine ih (popAt rem li2) (r :: b :: bs) hfuel2 hrem2
            (List.Chain'.cons ⟨hbkey, hsame⟩ hacc) ?_
          intro b2 hb2 l hl x hx
          have hb2r : b2 = r := by simpa using hb2.symm
          rcases hrows2 l hl x hx with ⟨l0, hl0, hx0⟩
          rw [hb2r]
          exact hrkey l0 hl0 x hx0

/-- C9 (amended): for input parts whose rows are sorted by Row::operator<,
the merge_rows output has non-decreasing keys and no two ADJACENT rows
share (key, timestamp). Within one key the timestamps are NOT guaranteed
strictly descending, and equal (key, timestamp) pairs can recur
non-adjacently, because the heap order (key ascending, timestamp
descending) disagrees with the within-key order of the sorted inputs
(timestamp ascending); see the counterexample. -/
theorem C9_merge_keys_sorted_adjacent_distinct (lists : List (List Row))
    (hsorted : ∀ l ∈ lists, l.Pairwise Row.le) :
    (merge_rows lists).Pairwise (fun a b => a.key ≤ b.key) ∧
    (merge_rows lists).Chain' (fun a b => ¬ sameKeyTs a b) := by
  have hch : List.Chain' (fun x y => x.key ≤ y.key ∧ ¬ sameKeyTs x y) (merge_rows lists) :=
    mergeLoop_chain (totalLen lists) lists [] (le_refl _) hsorted (by simp)
      (fun b hb => by cases hb)
  constructor
  · have hch2 : (merge_rows lists).Chain' (fun a b => a.key ≤ b.key) :=
      List.Chain'.imp (fun a b h => h.1) hch
    haveI : IsTrans Row (fun a b : Row => a.key ≤ b.key) :=
      ⟨fun a b c h1 h2 => le_trans h1 h2⟩
    exact (List.chain'_iff_pairwise).mp hch2
  · exact List.Chain'.imp (fun a b h => h.2) hch

/-- C9 counterexample: two sorted parts with one key at two timestamps; the
merge output repeats an exact (key, timestamp) pair, contradicting both the
strict within-key descending order and the claimed absence of duplicate
(key, timestamp) pairs. -/
theorem C9_counterexample :
    (∀ l ∈ cex9Parts, l.Pairwise Row.le) ∧
    ¬ ((merge_rows cex9Parts).Pairwise (fun a b => ¬ sameKeyTs a b)) := by decide

theorem C9_witness :
    (∀ l ∈ wit9Parts, l.Pairwise Row.le) ∧
    ((merge_rows wit9Parts).Pairwise (fun a b => a.key ≤ b.key) ∧
      (merge_rows wit9Parts).Chain' (fun a b => ¬ sameKeyTs a b)) :=
  ⟨by decide, C9_merge_keys_sorted_adjacent_distinct wit9Parts (by decide)⟩

end clickhouse
